import Mathlib

/-!
Verification of the posterior-sampling core of
`src/pipeline/inference/sampler.py` (loss-projected posterior via
alternating projections).

Embedding conventions.

* A torch tensor is a `Tensor`: its (multi-dimensional) shape together with
  its flattened entries; entries are exact rationals (reals for the prior
  sampler, whose scale involves a square root).
* A parameter dictionary (Python `dict` of named tensors, insertion
  ordered) is a `PSet`: an ordered list of name/tensor pairs.
* The `torch.func` automatic-differentiation primitives are represented by
  their mathematical semantics at the reference parameter point: a batched
  loss map is described by its per-example gradients `jac : List PSet`
  (one `ParameterSet`-shaped gradient per example, exactly what
  `torch.func.vmap(torch.func.jacrev(func))` evaluates to). Forward mode
  (`torch.func.jvp`) with tangent `v` then yields the vector of full
  flattened inner products `⟪grad n, v⟫`, and reverse mode
  (`torch.func.vjp`) with cotangent `u` yields the parameter-shaped sum
  `Σ n, u n • grad n`. `torch.func.vjp` wraps its cotangents in a tuple
  matching the primals; the model works with the parameter dictionary the
  tuple carries.
* `torch.linalg.pinv` is an external library routine (the Moore-Penrose
  pseudo-inverse); it enters the model as an explicit function parameter
  `pinv`, and pseudo-inverse facts are stated through the Penrose identity
  `M (J Jᵀ) M = M` that the routine guarantees.
* `torch.randn_like` draws are passed in explicitly as a `noise` argument
  of the same shape as the template, and `torch.sqrt` — a numeric library
  routine like `torch.linalg.pinv` — as an explicit function parameter
  `sqrtF`.
-/

namespace PhaseField

/-- A torch tensor: its shape and its flattened data. -/
structure Tensor (α : Type) where
  shape : List Nat
  data : List α
deriving DecidableEq

/-- A ParameterSet: an ordered mapping from parameter name to tensor
(Python dicts preserve insertion order). -/
structure PSet (α : Type) where
  entries : List (String × Tensor α)
deriving DecidableEq

/-- Default tensor used by positional lookups out of range. -/
def tdef : Tensor ℚ := ⟨[], []⟩

/-- Default entry used by positional lookups out of range. -/
def edef : String × Tensor ℚ := ("", tdef)

/-- Default ParameterSet. -/
def pdef : PSet ℚ := ⟨[]⟩

/-- Dot product of two flat lists (`torch.einsum` over one shared index);
like the tensor ops it models, it contracts over the common length. -/
def dotL (a b : List ℚ) : ℚ := (List.zipWith (· * ·) a b).sum

/-- A matrix as a list of rows. -/
abbrev Mat := List (List ℚ)

/-- `torch.matmul` of a matrix with a vector. -/
def mulVecL (M : Mat) (x : List ℚ) : List ℚ := M.map (fun r => dotL r x)

/-- Number of columns of a row-list matrix. -/
def colCount (M : Mat) : Nat := (M.getD 0 []).length

/-- Column `j` of a row-list matrix. -/
def colL (M : Mat) (j : Nat) : List ℚ := M.map (fun r => r.getD j 0)

/-- `torch.matmul` of two matrices. -/
def matMulL (A B : Mat) : Mat :=
  A.map (fun r => (List.range (colCount B)).map (fun j => dotL r (colL B j)))

/-- Entry `(n, m)` of a row-list matrix. -/
def entryM (M : Mat) (n m : Nat) : ℚ := (M.getD n []).getD m 0

/-- Flattened data of the `i`-th named tensor of a ParameterSet. -/
def dataAt (s : PSet ℚ) (i : Nat) : List ℚ := ((s.entries.getD i edef).2).data

/-- Scalar entry `j` of the `i`-th tensor of a ParameterSet. -/
def ent (s : PSet ℚ) (i j : Nat) : ℚ := (dataAt s i).getD j 0

/-- Number of named tensors in a ParameterSet. -/
def nP (s : PSet ℚ) : Nat := s.entries.length

/-- The list of flattened sizes of the tensors of a ParameterSet. -/
def datLens (s : PSet ℚ) : List Nat := s.entries.map (fun e => e.2.data.length)

/-- The names and shapes of a ParameterSet, in order. -/
def namesShapes {α : Type} (s : PSet α) : List (String × List Nat) :=
  s.entries.map (fun e => (e.1, e.2.shape))

/-- Concatenation of all flattened parameter tensors: the ParameterSet
viewed as one dense parameter vector. -/
def flatP (s : PSet ℚ) : List ℚ :=
  (s.entries.map (fun e => e.2.data)).flatten

/-- `torch.func.jvp` of the batched per-example loss map at the reference
parameters (sampler.py line 226): with the map described by its per-example
gradients `jac`, the tangent `v` is pushed forward to the batch vector `J v`
whose `n`-th entry is the full flattened inner product of gradient `n`
with `v`. -/
def jvpB (jac : List (PSet ℚ)) (v : PSet ℚ) : List ℚ :=
  jac.map (fun g => dotL (flatP g) (flatP v))

/-- `torch.func.vjp` of the same batched loss map (sampler.py line 230):
the cotangent `u` is pulled back to the parameter-shaped gradient object
`Jᵀ u = Σ n, u n • grad n`, whose names and shapes come from the primal
parameters. -/
def vjpB (params : PSet ℚ) (jac : List (PSet ℚ)) (u : List ℚ) : PSet ℚ :=
  ⟨(List.range (nP params)).map (fun i =>
    ((params.entries.getD i edef).1,
     ⟨(params.entries.getD i edef).2.shape,
      (List.range (dataAt params i).length).map (fun j =>
        (List.zipWith (fun c g => c * ent g i j) u jac).sum)⟩))⟩

/-- Rows of the flattened Jacobian block of parameter tensor `i`
(sampler.py line 134, `j.flatten(1)`): one row of length `P i` per
example. -/
def blockRows (jac : List (PSet ℚ)) (i : Nat) : List (List ℚ) :=
  jac.map (fun g => dataAt g i)

/-- `torch.einsum('NP,MP->NM', j, j)` (sampler.py line 141): the Gram
matrix of the rows of one flattened Jacobian block. -/
def gram (rows : List (List ℚ)) : Mat :=
  rows.map (fun r => rows.map (fun s => dotL r s))

/-- `torch.stack(blocks).sum(0)` (sampler.py lines 141-143): entrywise sum
of a list of `b × b` matrices. -/
def stackSum (ms : List Mat) (b : Nat) : Mat :=
  (List.range b).map (fun n =>
    (List.range b).map (fun m => (ms.map (fun M => entryM M n m)).sum))

/-- `batched_JJt` (sampler.py lines 99-144): the per-example gradients
`jac` are the dict `tf.vmap(tf.jacrev(func))(params, xb, yb)`; each
per-parameter block is flattened in its trailing dimensions, contracted
against itself across the parameter axis, and the per-block `B × B`
matrices are stacked and summed. -/
def batched_JJt (params : PSet ℚ) (jac : List (PSet ℚ)) : Mat :=
  stackSum ((List.range (nP params)).map (fun i => gram (blockRows jac i)))
    jac.length

/-- `batched_proj` (sampler.py lines 182-231): first `J v` by one forward
pass, then the matrix-vector product with the cached inverse, then one
reverse pass. The source returns the reverse pass result directly: the
final subtraction `new_params - ...` announced by its own docstring
(line 195) never happens. -/
def batched_proj (params new_params : PSet ℚ) (jac : List (PSet ℚ))
    (invJJt : Mat) : PSet ℚ :=
  vjpB params jac (mulVecL invJJt (jvpB jac new_params))

/-- Entrywise per-tensor subtraction of two ParameterSets of the same
structure, as the docstring formula `(I - Jᵀ (JJᵀ)⁻¹ J) v` requires for
its final step. -/
def psubE (a b : PSet ℚ) : PSet ℚ :=
  ⟨List.zipWith (fun ea eb =>
      (ea.1, ⟨ea.2.shape, List.zipWith (· - ·) ea.2.data eb.2.data⟩))
    a.entries b.entries⟩

/-- Python dict lookup `s[k]`: the data of the first entry named `k`. -/
def findData (s : PSet ℚ) (k : String) : List ℚ :=
  match s.entries.find? (fun e => e.1 == k) with
  | some e => e.2.data
  | none => []

/-- `param_diff = \x7bk: param1[k] - v for k, v in param0.items()\x7d`
(sampler.py line 94). -/
def psub (param1 param0 : PSet ℚ) : PSet ℚ :=
  ⟨param0.entries.map (fun kv =>
     (kv.1, ⟨kv.2.shape,
             List.zipWith (· - ·) (findData param1 kv.1) kv.2.data⟩))⟩

/-- Entrywise tensor addition (`outputs + jvp_val`, sampler.py line 96). -/
def tAdd (a b : Tensor ℚ) : Tensor ℚ :=
  ⟨a.shape, List.zipWith (· + ·) a.data b.data⟩

/-- `linearized_predict` (sampler.py lines 59-96). The single call
`tf.jvp(fp, (param0,), (param_diff,))` is represented by its data at
`param0`: the primal output `f0 = func(param0, x)` and the gradient `Jx o`
of each flattened output coordinate `o`; the jvp value of coordinate `o`
against a tangent is then the full flattened inner product with `Jx o`. -/
def linearized_predict (f0 : Tensor ℚ) (Jx : List (PSet ℚ))
    (param0 param1 : PSet ℚ) : Tensor ℚ :=
  let param_diff := psub param1 param0
  let jvp_val : Tensor ℚ :=
    ⟨f0.shape, Jx.map (fun g => dotL (flatP g) (flatP param_diff))⟩
  tAdd f0 jvp_val

/-- `precompute_inverse_` (sampler.py lines 146-179): one pass over the
loader, appending `pinv(batched_JJt(func, params, xb, yb))` per batch.
`pinv` stands for `torch.linalg.pinv` and `jacB` maps a batch to the
per-example gradients that `tf.vmap(tf.jacrev(func))` produces on it. -/
def precompute_inverse_ {Batch : Type} (pinv : Mat → Mat)
    (jacB : Batch → List (PSet ℚ)) (params : PSet ℚ)
    (train_loader : List Batch) : List Mat :=
  train_loader.foldl
    (fun cache data => cache ++ [pinv (batched_JJt params (jacB data))]) []

/-- A durable key-value store of persisted pseudo-inverse sequences. -/
abbrev Store := List (String × List Mat)

/-- `precompute_inverse_` with the durable store made explicit. The source
function performs no storage access of any kind (the module imports `os`
and `glob` but this function never uses them; the driver comment "load
cache if it exists, else precompute and save" is an unimplemented stub),
so the store is threaded through the loop untouched and never consulted. -/
def precomputeSt {Batch : Type} (pinv : Mat → Mat)
    (jacB : Batch → List (PSet ℚ)) (params : PSet ℚ)
    (train_loader : List Batch) (store : Store) : List Mat × Store :=
  train_loader.foldl
    (fun acc data =>
      (acc.1 ++ [pinv (batched_JJt params (jacB data))], acc.2))
    ([], store)

/-- `randn_params` (sampler.py lines 31-56): each template tensor is
replaced by `1/torch.sqrt(precision) * torch.randn_like(v)`; `noise`
stands for the standard-normal draws `torch.randn_like` returns, one per
template tensor, and `sqrtF` for the library routine `torch.sqrt`. The
`n_samples` argument is accepted but never used by the source, and no
leading sample axis is ever created. -/
def randn_params (sqrtF : ℚ → ℚ) (noise : PSet ℚ) (precision : ℚ)
    (n_samples : Nat) : PSet ℚ :=
  ⟨noise.entries.map (fun kv =>
     (kv.1, ⟨kv.2.shape,
             kv.2.data.map (fun x => 1 / sqrtF precision * x)⟩))⟩

/-- One alternating-projection sweep: fold the projector over the
minibatches (each given with its cached inverse) in cache order, replacing
the running candidate after each minibatch. -/
def sweep (params : PSet ℚ) (cachePairs : List (List (PSet ℚ) × Mat))
    (v : PSet ℚ) : PSet ℚ :=
  cachePairs.foldl (fun cand p => batched_proj params cand p.1 p.2) v

/-- Modelled from the spec: the body of `alternating_projection_sampler`
(sampler.py lines 234-249) is missing from the source — the function holds
only the comments "load cache if it exists, else precompute and save",
"generate samples from prior", "perform alternating projections". Following
the spec, the driver obtains the inverse cache for the loader, draws one
prior sample per requested sample (`prior s` abstracting the `s`-th prior
draw), and for each prior sample independently repeats `n_epochs` sweeps
over the minibatches in the cache's fixed order, the candidate being
replaced by its projection after each minibatch. -/
def alternating_projection_sampler {Batch : Type} (pinv : Mat → Mat)
    (jacB : Batch → List (PSet ℚ)) (n_samples : Nat) (params : PSet ℚ)
    (prior : Nat → PSet ℚ) (dataloader : List Batch) (n_epochs : Nat) :
    List (PSet ℚ) :=
  let cache := precompute_inverse_ pinv jacB params dataloader
  let pairs := List.zip (dataloader.map jacB) cache
  (List.range n_samples).map (fun s =>
    Nat.iterate (sweep params pairs) n_epochs (prior s))

/-! ### Concrete instances used to evaluate the model -/

/-- A reference ParameterSet with a single scalar parameter `p`. -/
def params1 : PSet ℚ := ⟨[("p", ⟨[], [0]⟩)]⟩

/-- Per-example gradients of a one-example batch on `params1`: the loss
`(p, x, y) ↦ p * x` at `x = 1` has constant gradient `1`. -/
def jac1 : List (PSet ℚ) := [⟨[("p", ⟨[], [1]⟩)]⟩]

/-- The Moore-Penrose pseudo-inverse of `batched_JJt params1 jac1 = [[1]]`. -/
def M1 : Mat := [[1]]

/-- A candidate ParameterSet to project. -/
def v1 : PSet ℚ := ⟨[("p", ⟨[], [1]⟩)]⟩

/-- A reference ParameterSet with a vector parameter `w` and a scalar `b`. -/
def params0 : PSet ℚ := ⟨[("w", ⟨[2], [0, 0]⟩), ("b", ⟨[], [0]⟩)]⟩

/-- Gradient of example 0 of a two-example batch on `params0`. -/
def gA : PSet ℚ := ⟨[("w", ⟨[2], [1, 0]⟩), ("b", ⟨[], [0]⟩)]⟩

/-- Gradient of example 1 of the same batch. -/
def gB : PSet ℚ := ⟨[("w", ⟨[2], [0, 1]⟩), ("b", ⟨[], [0]⟩)]⟩

/-- The two-example per-example gradient list (orthonormal rows, so
`batched_JJt params0 jacO` is the identity and is its own
pseudo-inverse). -/
def jacO : List (PSet ℚ) := [gA, gB]

/-- The pseudo-inverse of `batched_JJt params0 jacO`. -/
def Mid : Mat := [[1, 0], [0, 1]]

/-- A candidate ParameterSet structured like `params0`. -/
def vW : PSet ℚ := ⟨[("w", ⟨[2], [3, 5]⟩), ("b", ⟨[], [7]⟩)]⟩

/-- A non-orthogonal gradient for example 0. -/
def g1 : PSet ℚ := ⟨[("w", ⟨[2], [1, 2]⟩), ("b", ⟨[], [3]⟩)]⟩

/-- A non-orthogonal gradient for example 1. -/
def g2 : PSet ℚ := ⟨[("w", ⟨[2], [4, 5]⟩), ("b", ⟨[], [6]⟩)]⟩

/-- A concrete primal output `func(param0, x)` with two coordinates. -/
def f0c : Tensor ℚ := ⟨[2], [1, 2]⟩

/-- Per-output-coordinate gradients of that function at the reference. -/
def Jxc : List (PSet ℚ) := [gA, gB]

/-- A stand-in for `torch.linalg.pinv` in concrete runs; it agrees with
the Moore-Penrose pseudo-inverse on the matrix `[[1]]` these runs reach. -/
def pinv0 : Mat → Mat := fun m => m

/-- A one-batch data source whose batches are indexed by `Nat`; every
batch carries the gradients `jac1`. -/
def jacB1 : Nat → List (PSet ℚ) := fun _ => jac1

/-- A loader holding exactly one minibatch. -/
def loader1 : List Nat := [0]

/-- A durable store already holding a sequence under some cache key. -/
def store0 : Store := [("cache-key", [[[5]]])]

/-- A concrete noise ParameterSet (standard-normal draws) for the prior
sampler. -/
def noise0 : PSet ℚ := ⟨[("w", ⟨[3], [1, 2, 3]⟩)]⟩

/-! ### General lemmas about lists and sums -/

theorem getD_eq_getElem_of_lt {α : Type} (l : List α) (d : α) {n : Nat}
    (h : n < l.length) : l.getD n d = l[n] := by
  rw [List.getD_eq_getElem?_getD]
  rw [List.getElem?_eq_getElem h]
  rfl

theorem getD_mem_of_lt {α : Type} (l : List α) (d : α) {n : Nat}
    (h : n < l.length) : l.getD n d ∈ l := by
  rw [getD_eq_getElem_of_lt l d h]; exact List.getElem_mem h

theorem getD_map_of_lt {α β : Type} (fn : α → β) (xs : List α)
    (dfl : β) (dfa : α) {n : Nat} (h : n < xs.length) :
    (xs.map fn).getD n dfl = fn (xs.getD n dfa) := by
  rw [getD_eq_getElem_of_lt _ dfl (by simpa using h),
    getD_eq_getElem_of_lt _ dfa h, List.getElem_map]

theorem getD_range_map {β : Type} (fn : Nat → β) (dfl : β) {n k : Nat}
    (h : k < n) : ((List.range n).map fn).getD k dfl = fn k := by
  rw [getD_map_of_lt fn _ dfl 0 (by simpa using h)]
  congr 1
  rw [getD_eq_getElem_of_lt _ 0 (by simpa using h)]
  exact List.getElem_range k _

theorem sum_map_range (fn : Nat → ℚ) :
    ∀ (m : Nat),
      ((List.range m).map fn).sum = ∑ k ∈ Finset.range m, fn k
  | 0 => by simp
  | k + 1 => by
      rw [List.range_succ, List.map_append, List.sum_append,
        Finset.sum_range_succ, sum_map_range fn k]
      simp

theorem sum_zipWith {α β : Type} (f : α → β → ℚ) (da : α) (db : β) :
    ∀ (a : List α) (b : List β),
      (List.zipWith f a b).sum
        = ∑ k ∈ Finset.range (min a.length b.length),
            f (a.getD k da) (b.getD k db)
  | [], _ => by simp
  | _ :: _, [] => by simp
  | a :: as, b :: bs => by
      rw [List.zipWith_cons_cons, List.sum_cons, sum_zipWith f da db as bs,
        List.length_cons, List.length_cons, Nat.succ_min_succ,
        Finset.sum_range_succ']
      simp only [List.getD_cons_succ, List.getD_cons_zero]
      exact add_comm _ _

theorem dotL_eq_sum (a b : List ℚ) :
    dotL a b
      = ∑ k ∈ Finset.range (min a.length b.length),
          a.getD k 0 * b.getD k 0 :=
  sum_zipWith (· * ·) 0 0 a b

theorem dotL_append (a b c d : List ℚ) (h : a.length = b.length) :
    dotL (a ++ c) (b ++ d) = dotL a b + dotL c d := by
  unfold dotL
  rw [List.zipWith_append _ _ _ _ _ h, List.sum_append]

theorem dotL_flatten :
    ∀ (as bs : List (List ℚ)),
      as.map List.length = bs.map List.length →
      dotL as.flatten bs.flatten
        = ∑ i ∈ Finset.range as.length,
            dotL (as.getD i []) (bs.getD i []) := by
  intro as
  induction as with
  | nil =>
      intro bs hlen
      cases bs with
      | nil => simp [dotL]
      | cons q qs => exact absurd hlen (by simp)
  | cons a as ih =>
      intro bs hlen
      cases bs with
      | nil => exact absurd hlen (by simp)
      | cons b bs =>
          rw [List.map_cons, List.map_cons, List.cons.injEq] at hlen
          rw [List.flatten_cons, List.flatten_cons,
            dotL_append _ _ _ _ hlen.1, ih bs hlen.2, List.length_cons,
            Finset.sum_range_succ']
          simp only [List.getD_cons_succ, List.getD_cons_zero]
          exact add_comm _ _

theorem map_range_getD {α β : Type} (h : α → β) (d : α) :
    ∀ (l : List α),
      (List.range l.length).map (fun i => h (l.getD i d)) = l.map h
  | [] => by simp
  | a :: as => by
      rw [List.length_cons, List.range_succ_eq_map]
      rw [List.map_cons, List.map_map, List.map_cons]
      refine congrArg₂ _ rfl ?_
      have hcomp : ((fun i => h ((a :: as).getD i d)) ∘ Nat.succ)
          = fun i => h (as.getD i d) := by
        funext i
        simp [List.getD_cons_succ]
      rw [hcomp, map_range_getD h d as]

theorem foldl_append_map {β γ : Type} (f : β → γ) :
    ∀ (l : List β) (acc : List γ),
      l.foldl (fun c d => c ++ [f d]) acc = acc ++ l.map f
  | [], acc => by simp
  | b :: bs, acc => by
      rw [List.foldl_cons, foldl_append_map f bs (acc ++ [f b]),
        List.map_cons, List.append_assoc]
      rfl

/-! ### Structure lemmas about ParameterSets and the model operations -/

theorem datLens_length {g h : PSet ℚ} (hdl : datLens g = datLens h) :
    g.entries.length = h.entries.length := by
  have := congrArg List.length hdl
  simpa [datLens] using this

theorem dataAt_length {g h : PSet ℚ} (hdl : datLens g = datLens h)
    {i : Nat} (hi : i < h.entries.length) :
    (dataAt g i).length = (dataAt h i).length := by
  have hl := datLens_length hdl
  have h2 := congrArg (fun l => l.getD i 0) hdl
  simp only [datLens] at h2
  rw [getD_map_of_lt _ _ 0 edef (by omega),
    getD_map_of_lt _ _ 0 edef hi] at h2
  exact h2

theorem dot_flat_blocks (g h : PSet ℚ) (hdl : datLens g = datLens h) :
    dotL (flatP g) (flatP h)
      = ∑ i ∈ Finset.range g.entries.length,
          dotL (dataAt g i) (dataAt h i) := by
  have hlen : g.entries.length = h.entries.length := datLens_length hdl
  have hmap : (g.entries.map (fun e => e.2.data)).map List.length
      = (h.entries.map (fun e => e.2.data)).map List.length := by
    rw [List.map_map, List.map_map]
    exact hdl
  unfold flatP
  rw [dotL_flatten _ _ hmap, List.length_map]
  refine Finset.sum_congr rfl ?_
  intro i hi
  rw [Finset.mem_range] at hi
  rw [getD_map_of_lt _ _ [] edef hi, getD_map_of_lt _ _ [] edef (by omega)]
  rfl

theorem datLens_vjpB (params : PSet ℚ) (jac : List (PSet ℚ))
    (u : List ℚ) : datLens (vjpB params jac u) = datLens params := by
  unfold datLens vjpB
  rw [List.map_map]
  have : ((fun e => e.2.data.length) ∘ fun i =>
      ((params.entries.getD i edef).1,
       (⟨(params.entries.getD i edef).2.shape,
         (List.range (dataAt params i).length).map (fun j =>
           (List.zipWith (fun c g => c * ent g i j) u jac).sum)⟩ :
        Tensor ℚ)))
      = fun i => (fun e => e.2.data.length) (params.entries.getD i edef) := by
    funext i
    simp [dataAt]
  rw [this]
  exact map_range_getD (fun e => e.2.data.length) edef params.entries

theorem namesShapes_vjpB (params : PSet ℚ) (jac : List (PSet ℚ))
    (u : List ℚ) : namesShapes (vjpB params jac u) = namesShapes params := by
  unfold namesShapes vjpB
  rw [List.map_map]
  exact map_range_getD (fun e => (e.1, e.2.shape)) edef params.entries

theorem ent_vjpB (params : PSet ℚ) (jac : List (PSet ℚ)) (u : List ℚ)
    {i j : Nat} (hi : i < nP params) (hj : j < (dataAt params i).length) :
    ent (vjpB params jac u) i j
      = ∑ m ∈ Finset.range (min u.length jac.length),
          u.getD m 0 * ent (jac.getD m pdef) i j := by
  unfold ent dataAt vjpB
  rw [getD_range_map _ _ hi]
  rw [getD_range_map _ _ hj]
  exact sum_zipWith (fun c g => c * ent g i j) 0 pdef u jac

theorem blockRows_getD (jac : List (PSet ℚ)) (i : Nat) {n : Nat}
    (hn : n < jac.length) :
    (blockRows jac i).getD n [] = dataAt (jac.getD n pdef) i := by
  unfold blockRows
  rw [getD_map_of_lt _ _ [] pdef hn]

theorem entryM_gram (rows : List (List ℚ)) {n m : Nat}
    (hn : n < rows.length) (hm : m < rows.length) :
    entryM (gram rows) n m = dotL (rows.getD n []) (rows.getD m []) := by
  unfold entryM gram
  rw [getD_map_of_lt _ _ [] [] hn, getD_map_of_lt _ _ 0 [] hm]

theorem entryM_JJt (params : PSet ℚ) (jac : List (PSet ℚ)) {n m : Nat}
    (hn : n < jac.length) (hm : m < jac.length) :
    entryM (batched_JJt params jac) n m
      = ∑ i ∈ Finset.range (nP params),
          dotL (dataAt (jac.getD n pdef) i) (dataAt (jac.getD m pdef) i) := by
  unfold entryM batched_JJt stackSum
  rw [getD_range_map _ _ hn, getD_range_map _ _ hm, List.map_map,
    sum_map_range]
  refine Finset.sum_congr rfl ?_
  intro i _
  have hrn : n < (blockRows jac i).length := by
    simpa [blockRows] using hn
  have hrm : m < (blockRows jac i).length := by
    simpa [blockRows] using hm
  have := entryM_gram (blockRows jac i) hrn hrm
  rw [Function.comp_apply, this, blockRows_getD jac i hn,
    blockRows_getD jac i hm]

theorem length_JJt (params : PSet ℚ) (jac : List (PSet ℚ)) :
    (batched_JJt params jac).length = jac.length := by
  simp [batched_JJt, stackSum]

theorem mem_JJt_length (params : PSet ℚ) (jac : List (PSet ℚ)) :
    ∀ r ∈ batched_JJt params jac, r.length = jac.length := by
  intro r hr
  unfold batched_JJt stackSum at hr
  rw [List.mem_map] at hr
  obtain ⟨n, _, rfl⟩ := hr
  simp

theorem colCount_of (M : Mat) (b : Nat) (h1 : M.length = b)
    (h2 : ∀ r ∈ M, r.length = b) : colCount M = b := by
  cases M with
  | nil => simpa [colCount] using h1
  | cons r rs => simpa [colCount] using h2 r (by simp)

theorem length_matMul (A B : Mat) : (matMulL A B).length = A.length := by
  simp [matMulL]

theorem mem_matMul_length (A B : Mat) :
    ∀ r ∈ matMulL A B, r.length = colCount B := by
  intro r hr
  unfold matMulL at hr
  rw [List.mem_map] at hr
  obtain ⟨a, _, rfl⟩ := hr
  simp

theorem mulVec_matMul (A B : Mat) (x : List ℚ)
    (hA : ∀ r ∈ A, r.length = B.length)
    (hB : ∀ r ∈ B, r.length = colCount B)
    (hx : x.length = colCount B) :
    mulVecL (matMulL A B) x = mulVecL A (mulVecL B x) := by
  unfold matMulL mulVecL
  rw [List.map_map]
  apply List.map_congr_left
  intro r hr
  rw [Function.comp_apply]
  have hrlen : r.length = B.length := hA r hr
  rw [dotL_eq_sum, dotL_eq_sum]
  rw [List.length_map, List.length_range, List.length_map]
  rw [hx, min_self, hrlen, min_self]
  have lhs_eq : ∀ j ∈ Finset.range (colCount B),
      ((List.range (colCount B)).map (fun j => dotL r (colL B j))).getD j 0
          * x.getD j 0
        = (∑ k ∈ Finset.range B.length,
            r.getD k 0 * entryM B k j) * x.getD j 0 := by
    intro j hj
    rw [Finset.mem_range] at hj
    rw [getD_range_map _ _ hj, dotL_eq_sum]
    congr 1
    rw [colL, List.length_map, hrlen, min_self]
    refine Finset.sum_congr rfl ?_
    intro k hk
    rw [Finset.mem_range] at hk
    rw [getD_map_of_lt _ _ 0 [] hk]
    rfl
  have rhs_eq : ∀ k ∈ Finset.range B.length,
      r.getD k 0 * (B.map (fun rr => dotL rr x)).getD k 0
        = r.getD k 0 * ∑ j ∈ Finset.range (colCount B),
            entryM B k j * x.getD j 0 := by
    intro k hk
    rw [Finset.mem_range] at hk
    rw [getD_map_of_lt _ _ 0 [] hk, dotL_eq_sum,
      hB _ (getD_mem_of_lt B [] hk), hx, min_self]
    rfl
  rw [Finset.sum_congr rfl lhs_eq, Finset.sum_congr rfl rhs_eq]
  simp only [Finset.sum_mul, Finset.mul_sum]
  rw [Finset.sum_comm]
  refine Finset.sum_congr rfl fun k _ => Finset.sum_congr rfl fun j _ => by
    ring

theorem jvp_vjp_entry (params : PSet ℚ) (jac : List (PSet ℚ)) (u : List ℚ)
    (hjac : ∀ g ∈ jac, datLens g = datLens params)
    (hu : u.length = jac.length) {n : Nat} (hn : n < jac.length) :
    dotL (flatP (jac.getD n pdef)) (flatP (vjpB params jac u))
      = dotL ((batched_JJt params jac).getD n []) u := by
  set g := jac.getD n pdef with hgdef
  have hg : g ∈ jac := getD_mem_of_lt jac pdef hn
  have hdlg : datLens g = datLens params := hjac g hg
  have hdlV : datLens (vjpB params jac u) = datLens params :=
    datLens_vjpB params jac u
  have hglen : g.entries.length = params.entries.length := datLens_length hdlg
  have hL : dotL (flatP g) (flatP (vjpB params jac u))
      = ∑ i ∈ Finset.range (nP params),
          ∑ j ∈ Finset.range (dataAt params i).length,
            ∑ m ∈ Finset.range jac.length,
              ent g i j * (u.getD m 0 * ent (jac.getD m pdef) i j) := by
    rw [dot_flat_blocks g _ (hdlg.trans hdlV.symm), hglen]
    refine Finset.sum_congr rfl ?_
    intro i hi
    rw [Finset.mem_range] at hi
    rw [dotL_eq_sum, dataAt_length hdlg hi, dataAt_length hdlV hi, min_self]
    refine Finset.sum_congr rfl ?_
    intro j hj
    rw [Finset.mem_range] at hj
    have hV : (dataAt (vjpB params jac u) i).getD j 0
        = ent (vjpB params jac u) i j := rfl
    rw [hV, ent_vjpB params jac u hi hj, hu, min_self, Finset.mul_sum]
    rfl
  have hlenrow : ((batched_JJt params jac).getD n []).length = jac.length :=
    mem_JJt_length params jac _
      (getD_mem_of_lt _ [] (by rw [length_JJt]; exact hn))
  have hR : dotL ((batched_JJt params jac).getD n []) u
      = ∑ m ∈ Finset.range jac.length,
          ∑ i ∈ Finset.range (nP params),
            ∑ j ∈ Finset.range (dataAt params i).length,
              (ent g i j * ent (jac.getD m pdef) i j) * u.getD m 0 := by
    rw [dotL_eq_sum, hlenrow, hu, min_self]
    refine Finset.sum_congr rfl ?_
    intro m hm
    rw [Finset.mem_range] at hm
    have hE : ((batched_JJt params jac).getD n []).getD m 0
        = entryM (batched_JJt params jac) n m := rfl
    rw [hE, entryM_JJt params jac hn hm, Finset.sum_mul]
    refine Finset.sum_congr rfl ?_
    intro i hi
    rw [Finset.mem_range] at hi
    have hgm : jac.getD m pdef ∈ jac := getD_mem_of_lt jac pdef hm
    rw [dotL_eq_sum, dataAt_length hdlg hi, dataAt_length (hjac _ hgm) hi,
      min_self, Finset.sum_mul]
    rfl
  rw [hL, hR]
  conv_rhs => rw [Finset.sum_comm]
  refine Finset.sum_congr rfl fun i _ => ?_
  conv_rhs => rw [Finset.sum_comm]
  refine Finset.sum_congr rfl fun j _ => Finset.sum_congr rfl fun m _ => by
    ring

theorem jvp_vjp (params : PSet ℚ) (jac : List (PSet ℚ)) (u : List ℚ)
    (hjac : ∀ g ∈ jac, datLens g = datLens params)
    (hu : u.length = jac.length) :
    jvpB jac (vjpB params jac u) = mulVecL (batched_JJt params jac) u := by
  have hlen : (jvpB jac (vjpB params jac u)).length
      = (mulVecL (batched_JJt params jac) u).length := by
    simp [jvpB, mulVecL, length_JJt]
  apply List.ext_getElem hlen
  intro n h1 h2
  have hn : n < jac.length := by simpa [jvpB] using h1
  simp only [jvpB, mulVecL, List.getElem_map]
  rw [← getD_eq_getElem_of_lt jac pdef hn,
    ← getD_eq_getElem_of_lt (batched_JJt params jac) []
      (by rw [length_JJt]; exact hn)]
  exact jvp_vjp_entry params jac u hjac hu hn

/-! ### Lemmas about the linearized predictor -/

theorem zipWith_sub_self : ∀ (l : List ℚ),
    List.zipWith (· - ·) l l = l.map (fun _ => 0)
  | [] => rfl
  | a :: as => by
      rw [List.zipWith_cons_cons, List.map_cons, zipWith_sub_self as,
        sub_self]

theorem find_self_of_nodup :
    ∀ (l : List (String × Tensor ℚ)),
      (l.map (fun e => e.1)).Nodup →
      ∀ kv ∈ l, l.find? (fun e => e.1 == kv.1) = some kv
  | [], _, kv, h => absurd h (List.not_mem_nil kv)
  | a :: as, hnd, kv, h => by
      rw [List.map_cons, List.nodup_cons] at hnd
      rcases List.mem_cons.mp h with rfl | hmem
      · exact List.find?_cons_of_pos _ (by simp)
      · refine (List.find?_cons_of_neg _ ?_).trans
          (find_self_of_nodup as hnd.2 kv hmem)
        simp only [beq_iff_eq]
        intro hEq
        refine hnd.1 ?_
        rw [hEq]
        exact List.mem_map.mpr ⟨kv, hmem, rfl⟩

theorem psub_self (p : PSet ℚ)
    (hnames : (p.entries.map (fun e => e.1)).Nodup) :
    psub p p = ⟨p.entries.map (fun kv =>
      (kv.1, ⟨kv.2.shape, kv.2.data.map (fun _ => 0)⟩))⟩ := by
  unfold psub
  congr 1
  refine List.map_congr_left ?_
  intro kv hkv
  have hfd : findData p kv.1 = kv.2.data := by
    unfold findData
    rw [find_self_of_nodup p.entries hnames kv hkv]
  rw [hfd, zipWith_sub_self]

theorem dotL_right_zeros :
    ∀ (a b : List ℚ), (∀ x ∈ b, x = 0) → dotL a b = 0 := by
  intro a
  induction a with
  | nil => intro b _; simp [dotL]
  | cons x xs ih =>
      intro b hz
      cases b with
      | nil => simp [dotL]
      | cons y ys =>
          have hy : y = 0 := hz y (List.mem_cons_self y ys)
          have hys : dotL xs ys = 0 :=
            ih ys (fun q hq => hz q (List.mem_cons_of_mem y hq))
          unfold dotL at hys ⊢
          rw [List.zipWith_cons_cons, List.sum_cons, hys, hy, mul_zero,
            zero_add]

theorem zipWith_add_zeros :
    ∀ (a b : List ℚ), b.length = a.length → (∀ x ∈ b, x = 0) →
      List.zipWith (· + ·) a b = a := by
  intro a
  induction a with
  | nil =>
      intro b hlen _
      cases b with
      | nil => rfl
      | cons y ys => exact absurd hlen (by simp)
  | cons x xs ih =>
      intro b hlen hz
      cases b with
      | nil => exact absurd hlen (by simp)
      | cons y ys =>
          rw [List.zipWith_cons_cons, hz y (List.mem_cons_self y ys),
            add_zero, ih ys (by simpa using hlen)
              (fun q hq => hz q (List.mem_cons_of_mem y hq))]

/-! ### Claim theorems -/

/-- C1: the claim states that `batched_proj` returns
`Proj(v) = (I - Jᵀ M⁻¹ J) v`, i.e. `v` minus the reverse-mode product
`Jᵀ (M⁻¹ (J v))` with the subtraction performed entrywise per parameter
tensor — as the source's own docstring announces. The code omits the
subtraction and returns `Jᵀ (M⁻¹ (J v))` itself: on a one-example batch
with a single scalar parameter of gradient `1`, `JJᵀ = [[1]]`,
`M⁻¹ = [[1]]` and candidate `v = 1`, the source returns `v` itself while
the documented formula yields `0`. -/
theorem batched_proj_missing_subtraction :
    batched_proj params1 v1 jac1 M1 = v1 ∧
    psubE v1 (vjpB params1 jac1 (mulVecL M1 (jvpB jac1 v1)))
      = (⟨[("p", ⟨[], [0]⟩)]⟩ : PSet ℚ) ∧
    batched_proj params1 v1 jac1 M1
      ≠ psubE v1 (vjpB params1 jac1 (mulVecL M1 (jvpB jac1 v1))) := by
  refine ⟨?_, ?_, ?_⟩
  · norm_num [batched_proj, vjpB, jvpB, mulVecL, dotL, flatP, dataAt, ent,
      nP, params1, jac1, M1, v1, edef, tdef, List.range_succ]
  · norm_num [psubE, batched_proj, vjpB, jvpB, mulVecL, dotL, flatP, dataAt,
      ent, nP, params1, jac1, M1, v1, edef, tdef, List.range_succ]
  · intro h
    norm_num [psubE, batched_proj, vjpB, jvpB, mulVecL, dotL, flatP, dataAt,
      ent, nP, params1, jac1, M1, v1, edef, tdef, List.range_succ,
      PSet.mk.injEq, Tensor.mk.injEq] at h

/-- C5: the claim states that for `w = batched_proj(v)` the forward-mode
product `J w` is (approximately) zero for that minibatch. Because the
source omits the final subtraction, `J w = J Jᵀ M⁻¹ J v`, which on the
same concrete one-example minibatch equals `J v = 1 ≠ 0`: the projected
output is not in the null space of `J`. -/
theorem batched_proj_output_not_in_nullspace :
    jvpB jac1 (batched_proj params1 v1 jac1 M1) = [1] ∧
    ([1] : List ℚ) ≠ [0] := by
  constructor
  · norm_num [batched_proj, vjpB, jvpB, mulVecL, dotL, flatP, dataAt, ent,
      nP, params1, jac1, M1, v1, edef, tdef, List.range_succ]
  · intro h
    norm_num [List.cons.injEq] at h

/-- C6: for every candidate `v` and minibatch gradients `jac` whose cached
matrix `M` is a pseudo-inverse of `batched_JJt` (the Penrose identity
`M (J Jᵀ) M = M`, which the Moore-Penrose pseudo-inverse satisfies),
applying `batched_proj` twice with the same reference parameters,
minibatch and cached inverse gives exactly the same result as applying it
once. -/
theorem batched_proj_idempotent (params v : PSet ℚ) (jac : List (PSet ℚ))
    (M : Mat) (hjac : ∀ g ∈ jac, datLens g = datLens params)
    (hMl : M.length = jac.length) (hMr : ∀ r ∈ M, r.length = jac.length)
    (hM : matMulL M (matMulL (batched_JJt params jac) M) = M) :
    batched_proj params (batched_proj params v jac M) jac M
      = batched_proj params v jac M := by
  have hcc : colCount M = jac.length := colCount_of M jac.length hMl hMr
  have hjvlen : (jvpB jac v).length = jac.length := by simp [jvpB]
  have hulen : (mulVecL M (jvpB jac v)).length = jac.length := by
    simp [mulVecL, hMl]
  show vjpB params jac
      (mulVecL M (jvpB jac (vjpB params jac (mulVecL M (jvpB jac v)))))
    = vjpB params jac (mulVecL M (jvpB jac v))
  rw [jvp_vjp params jac _ hjac hulen]
  congr 1
  have e1 : mulVecL (matMulL (batched_JJt params jac) M) (jvpB jac v)
      = mulVecL (batched_JJt params jac) (mulVecL M (jvpB jac v)) :=
    mulVec_matMul (batched_JJt params jac) M (jvpB jac v)
      (fun r hr => (mem_JJt_length params jac r hr).trans hMl.symm)
      (fun r hr => (hMr r hr).trans hcc.symm)
      (hjvlen.trans hcc.symm)
  rw [← e1]
  have hlen2 : (matMulL (batched_JJt params jac) M).length = jac.length := by
    rw [length_matMul, length_JJt]
  have hcc2 : colCount (matMulL (batched_JJt params jac) M) = jac.length :=
    colCount_of _ jac.length hlen2
      (fun r2 hr2 => (mem_matMul_length _ _ r2 hr2).trans hcc)
  have e2 : mulVecL (matMulL M (matMulL (batched_JJt params jac) M))
        (jvpB jac v)
      = mulVecL M
          (mulVecL (matMulL (batched_JJt params jac) M) (jvpB jac v)) :=
    mulVec_matMul M (matMulL (batched_JJt params jac) M) (jvpB jac v)
      (fun r hr => (hMr r hr).trans hlen2.symm)
      (fun r hr => ((mem_matMul_length _ _ r hr).trans hcc).trans hcc2.symm)
      (hjvlen.trans hcc2.symm)
  rw [← e2, hM]

/-- Witness for C6 at a two-example batch with orthonormal per-example
gradients, where `batched_JJt` is the identity and is its own
Moore-Penrose pseudo-inverse. -/
theorem batched_proj_idempotent_witness :
    batched_proj params0 (batched_proj params0 vW jacO Mid) jacO Mid
      = batched_proj params0 vW jacO Mid :=
  batched_proj_idempotent params0 vW jacO Mid (by decide) (by decide)
    (by decide)
    (by norm_num [matMulL, batched_JJt, stackSum, gram, blockRows, entryM,
      colCount, colL, dotL, dataAt, ent, nP, params0, jacO, gA, gB, Mid,
      edef, tdef, List.range_succ])

/-- C7: for every candidate ParameterSet matching the reference parameter
template, the value `batched_proj` returns is a ParameterSet with exactly
the same parameter names and per-name tensor shapes as the candidate (the
reverse-mode pass produces a gradient object shaped like the primal
parameters). -/
theorem batched_proj_preserves_names_shapes (params v : PSet ℚ)
    (jac : List (PSet ℚ)) (M : Mat)
    (hv : namesShapes v = namesShapes params) :
    namesShapes (batched_proj params v jac M) = namesShapes v := by
  unfold batched_proj
  rw [namesShapes_vjpB, hv]

/-- Witness for C7 at a concrete candidate shaped like `params0`. -/
theorem batched_proj_preserves_names_shapes_witness :
    namesShapes (batched_proj params0 vW jacO Mid) = namesShapes vW :=
  batched_proj_preserves_names_shapes params0 vW jacO Mid (by decide)

/-- C8: for per-example gradients `jac` carrying the same tensor sizes as
the parameter template, `batched_JJt` is a `B × B` matrix whose `(n, m)`
entry is the inner product of the flattened full-parameter gradients of
examples `n` and `m`: summing the per-parameter-tensor contractions of
the flattened Jacobian blocks reconstructs the Gram matrix of the
concatenated full-parameter Jacobian. -/
theorem batched_JJt_is_gram_of_full_jacobian (params : PSet ℚ)
    (jac : List (PSet ℚ)) (hjac : ∀ g ∈ jac, datLens g = datLens params) :
    (batched_JJt params jac).length = jac.length ∧
    (∀ r ∈ batched_JJt params jac, r.length = jac.length) ∧
    ∀ n m, n < jac.length → m < jac.length →
      entryM (batched_JJt params jac) n m
        = dotL (flatP (jac.getD n pdef)) (flatP (jac.getD m pdef)) := by
  refine ⟨length_JJt params jac, mem_JJt_length params jac, ?_⟩
  intro n m hn hm
  have hdl : datLens (jac.getD n pdef) = datLens (jac.getD m pdef) :=
    (hjac _ (getD_mem_of_lt jac pdef hn)).trans
      (hjac _ (getD_mem_of_lt jac pdef hm)).symm
  rw [entryM_JJt params jac hn hm, dot_flat_blocks _ _ hdl,
    datLens_length (hjac _ (getD_mem_of_lt jac pdef hn))]
  rfl

/-- Witness for C8 at a two-example batch with non-orthogonal gradients
spread over two parameter tensors. -/
theorem batched_JJt_is_gram_witness :
    entryM (batched_JJt params0 [g1, g2]) 0 1
      = dotL (flatP ([g1, g2].getD 0 pdef)) (flatP ([g1, g2].getD 1 pdef)) :=
  (batched_JJt_is_gram_of_full_jacobian params0 [g1, g2] (by decide)).2.2
    0 1 (by decide) (by decide)

/-- C9: `precompute_inverse_` iterates the loader exactly once, in order,
and returns the list with one entry per minibatch whose `i`-th element is
the library pseudo-inverse `pinv` (standing for `torch.linalg.pinv`, the
Moore-Penrose pseudo-inverse) of `batched_JJt` on the `i`-th minibatch. -/
theorem precompute_inverse_one_pass {Batch : Type} (pinv : Mat → Mat)
    (jacB : Batch → List (PSet ℚ)) (params : PSet ℚ)
    (train_loader : List Batch) :
    precompute_inverse_ pinv jacB params train_loader
      = train_loader.map (fun data => pinv (batched_JJt params (jacB data)))
    ∧ (precompute_inverse_ pinv jacB params train_loader).length
      = train_loader.length := by
  have h := foldl_append_map
    (fun data => pinv (batched_JJt params (jacB data))) train_loader []
  constructor
  · unfold precompute_inverse_
    rw [h]
    rfl
  · unfold precompute_inverse_
    rw [h]
    simp

/-- C3: the claim states that the inverse-cache computation persists its
result to durable storage and that a matching subsequent call loads it and
skips recomputation. The source performs neither: with the store made
explicit, a run leaves a pre-populated store exactly as it was (nothing is
persisted), and the result is the full recomputation whether the store
holds a matching entry or is empty (nothing is loaded). -/
theorem precompute_inverse_no_persistence :
    (precomputeSt pinv0 jacB1 params1 loader1 store0).2 = store0 ∧
    (precomputeSt pinv0 jacB1 params1 loader1 store0).1 = [[[1]]] ∧
    (precomputeSt pinv0 jacB1 params1 loader1 []).1 = [[[1]]] := by
  refine ⟨rfl, ?_, ?_⟩
  · norm_num [precomputeSt, pinv0, jacB1, params1, jac1, loader1,
      batched_JJt, stackSum, gram, blockRows, entryM, dotL, dataAt, ent,
      nP, edef, tdef, List.range_succ]
  · norm_num [precomputeSt, pinv0, jacB1, params1, jac1, loader1,
      batched_JJt, stackSum, gram, blockRows, entryM, dotL, dataAt, ent,
      nP, edef, tdef, List.range_succ]

/-- C2: for every requested count of at least one sample, the
spec-modelled driver returns a list of exactly `n_samples` posterior
samples, the `s`-th being obtained from the `s`-th prior draw by
repeatedly sweeping over the minibatches paired with their cached
inverses in the cache's fixed order, the running candidate being replaced
by its projection after each minibatch. -/
theorem alternating_projection_sampler_contract {Batch : Type}
    (pinv : Mat → Mat) (jacB : Batch → List (PSet ℚ)) (n_samples : Nat)
    (params : PSet ℚ) (prior : Nat → PSet ℚ) (dataloader : List Batch)
    (n_epochs : Nat) (hn : 1 ≤ n_samples) :
    (alternating_projection_sampler pinv jacB n_samples params prior
        dataloader n_epochs).length = n_samples ∧
    ∀ s, s < n_samples →
      (alternating_projection_sampler pinv jacB n_samples params prior
          dataloader n_epochs).getD s pdef
        = Nat.iterate
            (sweep params (List.zip (dataloader.map jacB)
              (precompute_inverse_ pinv jacB params dataloader)))
            n_epochs (prior s) := by
  constructor
  · simp [alternating_projection_sampler]
  · intro s hs
    exact getD_range_map _ _ hs

/-- Witness for C2 at a one-batch loader and one requested sample. -/
theorem alternating_projection_sampler_contract_witness :
    (alternating_projection_sampler pinv0 jacB1 1 params1 (fun _ => v1)
        loader1 1).length = 1 ∧
    (alternating_projection_sampler pinv0 jacB1 1 params1 (fun _ => v1)
        loader1 1).getD 0 pdef
      = Nat.iterate
          (sweep params1 (List.zip (loader1.map jacB1)
            (precompute_inverse_ pinv0 jacB1 params1 loader1))) 1 v1 :=
  ⟨(alternating_projection_sampler_contract pinv0 jacB1 1 params1
      (fun _ => v1) loader1 1 (by decide)).1,
   (alternating_projection_sampler_contract pinv0 jacB1 1 params1
      (fun _ => v1) loader1 1 (by decide)).2 0 (by decide)⟩

/-- C4: the claim states that `randn_params` produces `n_samples`
independent draws stacked along a new leading sample axis. The source
ignores `n_samples` entirely: the result is one draw, identical for every
requested count, and its names and shapes are exactly the template's —
no leading sample axis is ever created. -/
theorem randn_params_ignores_n_samples (sqrtF : ℚ → ℚ) (noise : PSet ℚ)
    (precision : ℚ) (n1 n2 : Nat) :
    randn_params sqrtF noise precision n1
      = randn_params sqrtF noise precision n2 ∧
    namesShapes (randn_params sqrtF noise precision n1)
      = namesShapes noise := by
  constructor
  · rfl
  · unfold randn_params namesShapes
    rw [List.map_map]
    rfl

/-- C10: evaluating `linearized_predict` with the candidate parameters
equal to the reference parameters makes the parameter difference zero, so
the forward-mode term vanishes and the linearized prediction reduces
exactly to the plain evaluation `func(param0, x)` at the reference
point. -/
theorem linearized_predict_at_reference (f0 : Tensor ℚ)
    (Jx : List (PSet ℚ)) (p : PSet ℚ) (hJ : Jx.length = f0.data.length)
    (hnames : (p.entries.map (fun e => e.1)).Nodup) :
    linearized_predict f0 Jx p p = f0 := by
  have hz : ∀ x ∈ flatP (psub p p), x = 0 := by
    rw [psub_self p hnames]
    intro x hx
    unfold flatP at hx
    rw [List.map_map, List.mem_flatten] at hx
    obtain ⟨l, hl, hxl⟩ := hx
    rw [List.mem_map] at hl
    obtain ⟨kv, _, rfl⟩ := hl
    simp only [Function.comp_apply] at hxl
    rw [List.mem_map] at hxl
    obtain ⟨y, _, hy⟩ := hxl
    exact hy.symm
  show tAdd f0
      ⟨f0.shape, Jx.map (fun g => dotL (flatP g) (flatP (psub p p)))⟩ = f0
  have hmap : Jx.map (fun g => dotL (flatP g) (flatP (psub p p)))
      = Jx.map (fun _ => 0) :=
    List.map_congr_left (fun g _ => dotL_right_zeros _ _ hz)
  rw [hmap]
  obtain ⟨sh, da⟩ := f0
  simp only at hJ
  unfold tAdd
  refine congrArg (Tensor.mk sh) ?_
  refine zipWith_add_zeros da (Jx.map (fun _ => 0)) (by simpa using hJ) ?_
  intro x hx
  rw [List.mem_map] at hx
  obtain ⟨y, _, hy⟩ := hx
  exact hy.symm

/-- Witness for C10 at a concrete two-coordinate output and a concrete
reference point. -/
theorem linearized_predict_at_reference_witness :
    linearized_predict f0c Jxc vW vW = f0c :=
  linearized_predict_at_reference f0c Jxc vW (by decide) (by decide)

end PhaseField
